import Mathlib

/-!
Verification of the vocab-swipe selection/progress engine.

The definitions below are shallow embeddings of the JavaScript functions in
the repository (app-sources.js, app-sources-server.js, app-sources-mobile.js,
server.js).  JavaScript strings are modelled as Lean `String` (or `List Char`
at the file-format level), JS arrays as `List`, JS objects used as string maps
as association lists `List (String × _)` (JS object keys are unique; in-place
update preserves key order, and property deletion removes the key).
Mutation of module state is modelled by explicit state passing.
-/

/-- JS `s.toLowerCase()`, modelled per character (`Char.toLower` covers the
ASCII range; the engine compares vocabulary terms, which are ASCII words).
A direct per-character definition is used so that concrete instances reduce
inside the kernel. -/
def String.jsLower (s : String) : String := String.mk (s.data.map Char.toLower)

/-- A vocabulary entry as it appears in the data files and is consumed by the
selection logic.  The selection and progress code reads only the `word` field;
the remaining display fields are carried verbatim. -/
structure WordEntry where
  word : String
  pronounce : String := ""
  wordType : String := ""
  meaning : String := ""
  translateVN : String := ""
  synonyms : List String := []
  antonyms : List String := []
  forms : List String := []
  audioURL : String := ""
  notes : String := ""
  deriving Repr, DecidableEq

/-- Per-source progress record: `{ learned: [], skipped: [], currentIndex: 0 }`
from app-sources.js / app-sources-server.js. -/
structure Progress where
  learned : List String
  skipped : List String
  currentIndex : Nat
  deriving Repr, DecidableEq

/-- The fresh record created when a source is first selected or reset. -/
def emptyProgress : Progress := { learned := [], skipped := [], currentIndex := 0 }

/-- The case-insensitive membership test used throughout the source:
`list.some(w => w.toLowerCase() === word.word.toLowerCase())`. -/
def memberCI (l : List String) (t : String) : Bool :=
  l.any (fun w => w.jsLower == t.jsLower)

/-- markWordAsLearned from app-sources.js lines 113-128 (identical in
app-sources-server.js lines 195-210), at the level of one progress record:
removes the case-insensitive matches of the key from `skipped`, then appends
the original-cased term to `learned` when no case-insensitive match exists. -/
def markWordAsLearnedProg (prog : Progress) (word : WordEntry) : Progress :=
  let wordKey := word.word.jsLower
  let skipped := prog.skipped.filter (fun w => w.jsLower != wordKey)
  let learned :=
    if prog.learned.any (fun w => w.jsLower == wordKey) then prog.learned
    else prog.learned ++ [word.word]
  { prog with skipped := skipped, learned := learned }

/-- markWordAsSkipped from app-sources.js lines 130-143: appends to `skipped`
only when the key is case-insensitively absent from both lists. -/
def markWordAsSkippedProg (prog : Progress) (word : WordEntry) : Progress :=
  let wordKey := word.word.jsLower
  if !prog.learned.any (fun w => w.jsLower == wordKey) &&
     !prog.skipped.any (fun w => w.jsLower == wordKey) then
    { prog with skipped := prog.skipped ++ [word.word] }
  else prog

/-- The unlearn handler in renderHistory (app-sources.js lines 618-634):
filters the term out of `learned` case-insensitively. -/
def unmarkLearnedProg (prog : Progress) (wordText : String) : Progress :=
  { prog with learned := prog.learned.filter (fun w => w.jsLower != wordText.jsLower) }

/-- The unskip handler in renderHistory (app-sources.js lines 661-673):
filters the term out of `skipped` case-insensitively. -/
def unmarkSkippedProg (prog : Progress) (wordText : String) : Progress :=
  { prog with skipped := prog.skipped.filter (fun w => w.jsLower != wordText.jsLower) }

/-- resetSourceProgress (app-sources.js lines 145-154): replaces the record
with a fresh empty one. -/
def resetProg (_prog : Progress) : Progress := emptyProgress

/-- markWordAsLearned from app-sources-mobile.js lines 123-133, which tracks a
plain learned list per source: appends the original-cased term when no
case-insensitive match exists. -/
def markWordAsLearnedMobile (learned : List String) (word : WordEntry) : List String :=
  let wordKey := word.word.jsLower
  if learned.any (fun w => w.jsLower == wordKey) then learned
  else learned ++ [word.word]

/-- One user-level operation on a progress record, for the reachability
statement: mark learned, mark skipped, the two unmark handlers, and reset. -/
inductive ProgOp where
  | learn (w : WordEntry)
  | skipOp (w : WordEntry)
  | unlearn (t : String)
  | unskip (t : String)
  | reset
  deriving Repr, DecidableEq

/-- Apply one operation to a progress record. -/
def applyOp (prog : Progress) : ProgOp → Progress
  | .learn w => markWordAsLearnedProg prog w
  | .skipOp w => markWordAsSkippedProg prog w
  | .unlearn t => unmarkLearnedProg prog t
  | .unskip t => unmarkSkippedProg prog t
  | .reset => resetProg prog

/-- The record reached from the fresh empty record by a sequence of operations. -/
def applyOps (ops : List ProgOp) : Progress :=
  ops.foldl applyOp emptyProgress

/-- Case-insensitive disjointness of two term lists. -/
def disjointCI (l s : List String) : Prop :=
  ∀ a ∈ l, ∀ b ∈ s, a.jsLower ≠ b.jsLower

/-- The scanning loop of getNextUnlearnedWord (app-sources.js lines 166-175,
identical in app-sources-server.js lines 248-257): walk the word list from
index `i`, returning the first entry whose lower-cased term has no
case-insensitive match in `learned`, together with its index. -/
def findUnlearnedFrom (learned : List String) : List WordEntry → Nat → Option (WordEntry × Nat)
  | [], _ => none
  | w :: rest, i =>
    if learned.any (fun l => l.jsLower == w.word.jsLower) then
      findUnlearnedFrom learned rest (i + 1)
    else some (w, i)

/-- getNextUnlearnedWord (app-sources.js lines 157-179): given the current
source word list and its progress record, return the selected word (none when
the list is empty or every word is learned) and the record with
`currentIndex` updated to the found position. -/
def getNextUnlearnedWord (words : List WordEntry) (prog : Progress) :
    Option WordEntry × Progress :=
  if words.length = 0 then (none, prog)
  else
    match findUnlearnedFrom prog.learned words 0 with
    | some (w, i) => (some w, { prog with currentIndex := i })
    | none => (none, prog)

/-- The filter computing availableWords in getRandomWord
(app-sources-mobile.js lines 170-173). -/
def availableWords (allWords : List WordEntry) (learned : List String) : List WordEntry :=
  allWords.filter (fun word => !learned.any (fun w => w.jsLower == word.word.jsLower))

/-- getRandomWord (app-sources-mobile.js lines 161-187).  The call
`Math.floor(Math.random() * availableWords.length)` is modelled by an
injected index generator `rand`; a faithful generator satisfies
`rand n < n` for `0 < n`. -/
def getRandomWord (allWords : List WordEntry) (learned : List String)
    (rand : Nat → Nat) : Option WordEntry :=
  let available := availableWords allWords learned
  if available.length = 0 ∧ 0 < allWords.length then none
  else if available.length = 0 then none
  else available[rand available.length]?

/-- Stored source record (app-sources.js line 61-65). -/
structure SourceRec where
  words : List WordEntry
  createdAt : Nat
  totalWords : Nat
  deriving Repr, DecidableEq

/-- The module-level mutable state of app-sources.js: the `sources` and
`progress` maps and the `currentSource` name (empty string when none). -/
structure AppState where
  sources : List (String × SourceRec)
  progress : List (String × Progress)
  currentSource : String
  deriving Repr, DecidableEq

/-- JS object property assignment `m[name] = v`: overwrite in place when the
key exists, otherwise append a new key. -/
def upsertKey {β : Type} (m : List (String × β)) (name : String) (v : β) :
    List (String × β) :=
  if (m.lookup name).isSome then
    m.map (fun kv => if kv.1 == name then (kv.1, v) else kv)
  else m ++ [(name, v)]

/-- JS `delete m[name]`. -/
def deleteKey {β : Type} (m : List (String × β)) (name : String) :
    List (String × β) :=
  m.filter (fun kv => kv.1 != name)

/-- addSource (app-sources.js lines 56-78).  The `now` argument stands for
`Date.now()`; the `!Array.isArray(words)` test is discharged by typing.  On
success the source map is updated and an empty progress record is created when
none exists; the boolean is the saveSources() result (storage writes are
modelled as succeeding). -/
def addSource (st : AppState) (name : String) (words : List WordEntry) (now : Nat) :
    Bool × AppState :=
  if name = "" ∨ words.length = 0 then (false, st)
  else
    let sources' := upsertKey st.sources name
      { words := words, createdAt := now, totalWords := words.length }
    let progress' :=
      if (st.progress.lookup name).isNone then st.progress ++ [(name, emptyProgress)]
      else st.progress
    (true, { st with sources := sources', progress := progress' })

/-- deleteSource (app-sources.js lines 80-90): when the source exists, delete
it and its progress record (the progress deletion is guarded by
`if (progress[name])`); otherwise return false and change nothing. -/
def deleteSource (st : AppState) (name : String) : Bool × AppState :=
  match st.sources.lookup name with
  | some _ =>
    let progress' :=
      if (st.progress.lookup name).isSome then deleteKey st.progress name
      else st.progress
    (true, { st with sources := deleteKey st.sources name, progress := progress' })
  | none => (false, st)

/-- getSourceWords (app-sources.js lines 92-94): a pure read. -/
def getSourceWords (st : AppState) (sourceName : String) : List WordEntry :=
  match st.sources.lookup sourceName with
  | some rec0 => rec0.words
  | none => []

/-- getCurrentSourceProgress (app-sources.js lines 106-111): null when no
source is selected (empty string is falsy) or the map has no record. -/
def getCurrentSourceProgress (st : AppState) : Option Progress :=
  if st.currentSource = "" then none
  else st.progress.lookup st.currentSource

/-- markWordAsLearned (app-sources.js lines 113-128) at the state level:
an early return leaves the state untouched when getCurrentSourceProgress
yields null; otherwise the current record is updated in place. -/
def markWordAsLearnedApp (st : AppState) (word : WordEntry) : AppState :=
  match getCurrentSourceProgress st with
  | none => st
  | some prog =>
    { st with progress := upsertKey st.progress st.currentSource (markWordAsLearnedProg prog word) }

/-- markWordAsSkipped (app-sources.js lines 130-143) at the state level. -/
def markWordAsSkippedApp (st : AppState) (word : WordEntry) : AppState :=
  match getCurrentSourceProgress st with
  | none => st
  | some prog =>
    { st with progress := upsertKey st.progress st.currentSource (markWordAsSkippedProg prog word) }

/-- Predicate: the word has no case-insensitive match in the learned list
(the loop guard of getNextUnlearnedWord, negated). -/
def isUnlearned (learned : List String) (w : WordEntry) : Bool :=
  !learned.any (fun l => l.jsLower == w.word.jsLower)

/-- Concrete source record used in the counterexamples. -/
def exSourceRec : SourceRec := { words := [{ word := "red" }], createdAt := 0, totalWords := 1 }

/-- Concrete state used in the counterexamples: one source with one recorded
progress entry. -/
def exState : AppState :=
  { sources := [("A", exSourceRec)],
    progress := [("A", { learned := ["red"], skipped := [], currentIndex := 0 })],
    currentSource := "A" }

/-- JSON values as read by JSON.parse and written by JSON.stringify.  The
word lists stored in .data files contain only strings, arrays and objects;
numeric fields do not occur in WordEntry data (and JS numbers are floating
point), so numbers are outside the model. -/
inductive Json where
  | null
  | bool (b : Bool)
  | str (s : List Char)
  | arr (elems : List Json)
  | obj (fields : List (List Char × Json))
  deriving Repr

/-- The escapes JSON.stringify produces for the characters occurring in word
data: quote, backslash and the common control characters.  Other characters
are emitted verbatim (the \u form for rarer control characters is not
modelled; the repository's data contains none). -/
def escChar (c : Char) : List Char :=
  if c == '"' then ['\\', '"']
  else if c == '\\' then ['\\', '\\']
  else if c == '\n' then ['\\', 'n']
  else if c == '\t' then ['\\', 't']
  else if c == '\r' then ['\\', 'r']
  else [c]

/-- String-body escaping for JSON.stringify. -/
def escape : List Char → List Char
  | [] => []
  | c :: rest => escChar c ++ escape rest

/-- Inverse table of the escape codes accepted by JSON.parse that this model
supports. -/
def unescChar (c : Char) : Option Char :=
  if c == '"' then some '"'
  else if c == '\\' then some '\\'
  else if c == 'n' then some '\n'
  else if c == 't' then some '\t'
  else if c == 'r' then some '\r'
  else if c == '/' then some '/'
  else none

/-- Insignificant whitespace for JSON.parse. -/
def isWsChar (c : Char) : Bool :=
  c == ' ' || c == '\n' || c == '\t' || c == '\r'

/-- Skip insignificant whitespace. -/
def skipWs : List Char → List Char
  | [] => []
  | c :: rest => if isWsChar c then skipWs rest else c :: rest

/-- An indentation run of spaces. -/
def spaces : Nat → List Char
  | 0 => []
  | n + 1 => ' ' :: spaces n

mutual
/-- JSON.stringify(v, null, 2) at the current indent level i: non-empty
arrays and objects put every element on its own line indented two further
columns, with the closing bracket on a line indented at level i; object
entries are rendered as `"key": value`. -/
def render : Nat → Json → List Char
  | _, .null => ['n', 'u', 'l', 'l']
  | _, .bool true => ['t', 'r', 'u', 'e']
  | _, .bool false => ['f', 'a', 'l', 's', 'e']
  | _, .str s => '"' :: (escape s ++ ['"'])
  | _, .arr [] => ['[', ']']
  | i, .arr (v :: vs) => '[' :: (renderElems i v vs ++ '\n' :: (spaces i ++ [']']))
  | _, .obj [] => ['{', '}']
  | i, .obj (f :: fs) => '{' :: (renderFields i f fs ++ '\n' :: (spaces i ++ ['}']))
termination_by _ v => sizeOf v

/-- Render the elements of a non-empty array, each on its own line. -/
def renderElems : Nat → Json → List Json → List Char
  | i, v, [] => '\n' :: (spaces (i + 2) ++ render (i + 2) v)
  | i, v, w :: ws =>
    ('\n' :: (spaces (i + 2) ++ render (i + 2) v)) ++ ',' :: renderElems i w ws
termination_by _ v vs => 1 + sizeOf v + sizeOf vs

/-- Render the entries of a non-empty object, each on its own line. -/
def renderFields : Nat → (List Char × Json) → List (List Char × Json) → List Char
  | i, (k, v), [] =>
    '\n' :: (spaces (i + 2) ++ ('"' :: (escape k ++ '"' :: ':' :: ' ' :: render (i + 2) v)))
  | i, (k, v), f :: fs =>
    ('\n' :: (spaces (i + 2) ++ ('"' :: (escape k ++ '"' :: ':' :: ' ' :: render (i + 2) v)))) ++
      ',' :: renderFields i f fs
termination_by _ f fs => 1 + sizeOf f + sizeOf fs
end

/-- JSON.stringify(v, null, 2), as used in createDataFileContent. -/
def stringify (v : Json) : List Char := render 0 v

/-- Parse a JSON string body after the opening quote, returning the decoded
characters and the input following the closing quote. -/
def parseStrBody : List Char → Option (List Char × List Char)
  | [] => none
  | c :: rest =>
    if c == '"' then some ([], rest)
    else if c == '\\' then
      match rest with
      | [] => none
      | e :: rest2 =>
        match unescChar e with
        | some u => (parseStrBody rest2).map (fun p => (u :: p.1, p.2))
        | none => none
    else (parseStrBody rest).map (fun p => (c :: p.1, p.2))

mutual
/-- Recursive-descent JSON value parser (the fragment of JSON.parse the data
files use), fuelled to make the recursion structural. -/
def parseVal : Nat → List Char → Option (Json × List Char)
  | 0, _ => none
  | fuel + 1, input =>
    match skipWs input with
    | 'n' :: 'u' :: 'l' :: 'l' :: rest => some (.null, rest)
    | 't' :: 'r' :: 'u' :: 'e' :: rest => some (.bool true, rest)
    | 'f' :: 'a' :: 'l' :: 's' :: 'e' :: rest => some (.bool false, rest)
    | '"' :: rest => (parseStrBody rest).map (fun p => (.str p.1, p.2))
    | '[' :: rest =>
      (match skipWs rest with
       | ']' :: rest2 => some (.arr [], rest2)
       | _ => (parseElems fuel rest).map (fun p => (.arr p.1, p.2)))
    | '{' :: rest =>
      (match skipWs rest with
       | '}' :: rest2 => some (.obj [], rest2)
       | _ => (parseFields fuel rest).map (fun p => (.obj p.1, p.2)))
    | _ => none

/-- Parse the elements of a non-empty array up to and including the closing
bracket. -/
def parseElems : Nat → List Char → Option (List Json × List Char)
  | 0, _ => none
  | fuel + 1, input =>
    match parseVal fuel input with
    | none => none
    | some (v, rest) =>
      match skipWs rest with
      | ',' :: rest2 => (parseElems fuel rest2).map (fun p => (v :: p.1, p.2))
      | ']' :: rest2 => some ([v], rest2)
      | _ => none

/-- Parse the entries of a non-empty object up to and including the closing
brace. -/
def parseFields : Nat → List Char → Option (List (List Char × Json) × List Char)
  | 0, _ => none
  | fuel + 1, input =>
    match skipWs input with
    | '"' :: rest =>
      (match parseStrBody rest with
       | none => none
       | some (k, rest1) =>
         match skipWs rest1 with
         | ':' :: rest2 =>
           (match parseVal fuel rest2 with
            | none => none
            | some (v, rest3) =>
              match skipWs rest3 with
              | ',' :: rest4 => (parseFields fuel rest4).map (fun p => ((k, v) :: p.1, p.2))
              | '}' :: rest4 => some ([(k, v)], rest4)
              | _ => none)
         | _ => none)
    | _ => none
end

/-- JSON.parse: a value followed only by whitespace; anything else throws,
modelled as none. -/
def parseJson (s : List Char) : Option Json :=
  match parseVal (s.length + 1) s with
  | some (v, rest) => if (skipWs rest).isEmpty then some v else none
  | none => none

/-- JS String.prototype.trim on the character-list representation. -/
def trimChars (l : List Char) : List Char :=
  (((l.dropWhile isWsChar).reverse).dropWhile isWsChar).reverse

/-- JS content.split('\n'): the list of lines, one more line than there are
newline characters. -/
def splitNl : List Char → List (List Char)
  | [] => [[]]
  | c :: rest =>
    if c == '\n' then [] :: splitNl rest
    else
      match splitNl rest with
      | l :: ls => (c :: l) :: ls
      | [] => [[c]]

/-- JS lines.join('\n'). -/
def joinNl : List (List Char) → List Char
  | [] => []
  | [l] => l
  | l :: l2 :: ls => l ++ '\n' :: joinNl (l2 :: ls)

/-- JS a.startsWith(pat) on character lists. -/
def startsWithChars : List Char → List Char → Bool
  | [], _ => true
  | _ :: _, [] => false
  | p :: ps, c :: cs => p == c && startsWithChars ps cs

/-- createDataFileContent (server.js lines 47-59): an optional `#link:` first
line when the trimmed link is non-empty, followed by the pretty-printed JSON
of the words value. -/
def createDataFileContent (link : List Char) (words : Json) : List Char :=
  (if link ≠ [] ∧ trimChars link ≠ [] then
    (['#', 'l', 'i', 'n', 'k', ':', ' '] ++ trimChars link) ++ ['\n']
  else []) ++ stringify words

/-- parseDataFile (server.js lines 25-42): when the trimmed first line starts
with `#link:`, the link is the trimmed remainder of that trimmed line and the
JSON body is the remaining lines rejoined; otherwise the whole content is the
JSON body.  A JSON.parse failure propagates as none. -/
def parseDataFile (content : List Char) : Option (List Char × Json) :=
  let lines := splitNl content
  let first := trimChars (lines.headD [])
  if startsWithChars ['#', 'l', 'i', 'n', 'k', ':'] first then
    (parseJson (joinNl (lines.drop 1))).map (fun w => (trimChars (first.drop 6), w))
  else
    (parseJson content).map (fun w => (([] : List Char), w))

/-- Result of the POST /api/sources handler: HTTP 400, or success carrying
the file name and content written. -/
inductive PostResult where
  | badRequest
  | ok (fileName : List Char) (fileContent : List Char)
  deriving Repr, DecidableEq

/-- JS truthiness on the modelled JSON values (`!words`): null, false and the
empty string are falsy; arrays and objects are always truthy. -/
def jsFalsy : Json → Bool
  | .null => true
  | .bool b => !b
  | .str s => s.isEmpty
  | .arr _ => false
  | .obj _ => false

/-- Array.isArray. -/
def isArrayJson : Json → Bool
  | .arr _ => true
  | _ => false

/-- The regex class \s restricted to the ASCII range appearing in names. -/
def isJsSpace (c : Char) : Bool :=
  c == ' ' || c == '\t' || c == '\n' || c == '\r' || c == '\x0b' || c == '\x0c'

/-- The regex replace(/\s+/g, '-') as a scanner: the first whitespace
character of a run becomes a dash, the rest of the run is dropped.  The
boolean says whether the previous character was whitespace. -/
def squashWsAux : Bool → List Char → List Char
  | _, [] => []
  | inRun, c :: rest =>
    if isJsSpace c then (if inRun then [] else ['-']) ++ squashWsAux true rest
    else c :: squashWsAux false rest

/-- The regex replace(/\s+/g, '-'): every maximal whitespace run becomes a
single dash. -/
def squashWs (l : List Char) : List Char := squashWsAux false l

/-- The character class kept by replace(/[^a-z0-9-]/g, ''). -/
def allowedFileChar (c : Char) : Bool :=
  ('a' ≤ c && c ≤ 'z') || ('0' ≤ c && c ≤ '9') || c == '-'

/-- File name derivation in the POST handler (server.js lines 153-155):
lower-case the name, turn whitespace runs into dashes, drop everything
outside [a-z0-9-], and append `.data`. -/
def fileNameOf (name : List Char) : List Char :=
  (squashWs (name.map Char.toLower)).filter allowedFileChar ++ ['.', 'd', 'a', 't', 'a']

/-- fs.writeFile into the sources folder, modelled as an upsert keyed by file
name. -/
def writeFile (files : List (List Char × List Char)) (path content : List Char) :
    List (List Char × List Char) :=
  if (files.lookup path).isSome then
    files.map (fun kv => if kv.1 == path then (kv.1, content) else kv)
  else files ++ [(path, content)]

/-- The POST /api/sources handler (server.js lines 140-181): reject with 400
when `!name || !words || !Array.isArray(words)` (an absent field and an empty
name string are falsy); otherwise derive the file name, build the content
with the optional link, and write the file. -/
def postSources (files : List (List Char × List Char)) (name : Option (List Char))
    (link : Option (List Char)) (words : Option Json) :
    PostResult × List (List Char × List Char) :=
  match name, words with
  | some n, some w =>
    if n = [] then (.badRequest, files)
    else if jsFalsy w then (.badRequest, files)
    else if !isArrayJson w then (.badRequest, files)
    else
      let fn := fileNameOf n
      let content := createDataFileContent (link.getD []) w
      (.ok fn content, writeFile files fn content)
  | _, _ => (.badRequest, files)

/-- One listing entry produced by GET /api/sources. -/
structure SourceOut where
  name : List Char
  fileName : List Char
  link : List Char
  words : Json
  totalWords : Option Nat
  deriving Repr

/-- JS String.replace with a string pattern: replace the first occurrence
only. -/
def replaceFirst (pat sub : List Char) : List Char → List Char
  | [] => []
  | c :: rest =>
    if startsWithChars pat (c :: rest) then sub ++ (c :: rest).drop pat.length
    else c :: replaceFirst pat sub rest

/-- The regex replace(/\b\w/g, l => l.toUpperCase()): upper-case every word
character that does not follow a word character.  The boolean argument says
whether the previous character was a word character. -/
def capWordStarts : Bool → List Char → List Char
  | _, [] => []
  | prevW, c :: rest =>
    let isW := c.isAlphanum || c == '_'
    (if isW && !prevW then c.toUpper else c) :: capWordStarts isW rest

/-- Display-name derivation in the GET handler (server.js lines 79-81):
drop the first `.data`, dashes to spaces, capitalise word starts. -/
def deriveSourceName (file : List Char) : List Char :=
  capWordStarts false
    ((replaceFirst ['.', 'd', 'a', 't', 'a'] [] file).map
      (fun c => if c == '-' then ' ' else c))

/-- JS `x.length` as used on `parsed.words`: arrays and strings have a
length; on null the property access throws (none); booleans and plain
objects give undefined (some none). -/
def jsLenField : Json → Option (Option Nat)
  | .null => none
  | .str s => some (some s.length)
  | .arr vs => some (some vs.length)
  | .bool _ => some none
  | .obj _ => some none

/-- The try block run per file by the GET /api/sources handler: read the file
(none = fs.readFile threw), parse it (none = JSON.parse threw), take
`parsed.words.length` (throws on null), and build the listing entry.  Any
throw is caught, logged, and yields no entry. -/
def readSourceFile (file : List Char) (content : Option (List Char)) : Option SourceOut :=
  match content with
  | none => none
  | some c =>
    match parseDataFile c with
    | none => none
    | some (link, words) =>
      match jsLenField words with
      | none => none
      | some len =>
        some { name := deriveSourceName file, fileName := file, link := link,
               words := words, totalWords := len }

/-- The loop of the GET /api/sources handler: push an entry per readable,
parseable file, skipping the rest. -/
def collectSources : List (List Char × Option (List Char)) → List SourceOut
  | [] => []
  | (f, c) :: rest =>
    match readSourceFile f c with
    | some s => s :: collectSources rest
    | none => collectSources rest

/-- JS a.endsWith(suffix). -/
def endsWithChars (suffix l : List Char) : Bool :=
  startsWithChars suffix.reverse l.reverse

/-- The GET /api/sources handler (server.js lines 62-110) after a successful
readdir: keep the .data files and collect the readable ones. -/
def listSourcesHandler (files : List (List Char × Option (List Char))) : List SourceOut :=
  collectSources (files.filter (fun f => endsWithChars ['.', 'd', 'a', 't', 'a'] f.1))

-- ========================= THEOREMS =========================

/-- Helper: findIdx? only returns indices inside the list. -/
theorem findIdx?_lt_length {α : Type} (p : α → Bool) :
    ∀ (l : List α) (j : Nat), l.findIdx? p = some j → j < l.length := by
  intro l
  induction l with
  | nil => intro j h; simp [List.findIdx?] at h
  | cons x xs ih =>
    intro j h
    rw [List.findIdx?_cons] at h
    by_cases hp : p x
    · rw [if_pos hp] at h
      obtain rfl : (0 : Nat) = j := Option.some.inj h
      simp
    · rw [if_neg hp, List.findIdx?_succ] at h
      rcases Option.map_eq_some'.mp h with ⟨j', hj', rfl⟩
      have := ih j' hj'
      simp only [List.length_cons]
      omega

/-- Helper: the scanning loop agrees with findIdx? over the unlearned
predicate, with the accumulator shifting the reported index. -/
theorem findUnlearnedFrom_spec (learned : List String) (ws : List WordEntry) :
    ∀ i : Nat, findUnlearnedFrom learned ws i =
      match ws.findIdx? (fun w => isUnlearned learned w) with
      | some j => ws[j]?.map (fun w => (w, i + j))
      | none => none := by
  induction ws with
  | nil => intro i; simp [findUnlearnedFrom, List.findIdx?]
  | cons w rest ih =>
    intro i
    by_cases h : learned.any (fun l => l.jsLower == w.word.jsLower)
    · have hp : isUnlearned learned w = false := by simp [isUnlearned, h]
      rw [List.findIdx?_cons, if_neg (by simp [hp]), List.findIdx?_succ]
      rw [findUnlearnedFrom, if_pos h, ih (i + 1)]
      cases hfind : rest.findIdx? (fun w => isUnlearned learned w) with
      | none => simp
      | some j =>
        simp only [Option.map_some']
        have : i + 1 + j = i + (j + 1) := by omega
        simp [this]
    · have hp : isUnlearned learned w = true := by simp [isUnlearned, h]
      rw [List.findIdx?_cons, if_pos (by simp [hp])]
      rw [findUnlearnedFrom, if_neg h]
      simp

/-- C2.  Sequential-policy selection: getNextUnlearnedWord scans the stored
order and returns the first entry whose term is not case-insensitively in the
learned list, updating currentIndex to that position; when every entry is
learned (or the list is empty) it returns none and leaves the record as it
was. -/
theorem getNextUnlearnedWord_correct (words : List WordEntry) (prog : Progress) :
    getNextUnlearnedWord words prog =
      match words.findIdx? (fun w => isUnlearned prog.learned w) with
      | some i => (words[i]?, { prog with currentIndex := i })
      | none => (none, prog) := by
  unfold getNextUnlearnedWord
  by_cases hlen : words.length = 0
  · rw [if_pos hlen]
    have : words = [] := List.length_eq_zero.mp hlen
    subst this
    simp [List.findIdx?]
  · rw [if_neg hlen, findUnlearnedFrom_spec]
    cases hfind : words.findIdx? (fun w => isUnlearned prog.learned w) with
    | none => simp
    | some j =>
      have hj : j < words.length := findIdx?_lt_length _ words j hfind
      have : words[j]? = some words[j] := List.getElem?_eq_getElem hj
      simp [this]

/-- C1 helper: emptiness of the available list means every term is learned. -/
theorem availableWords_eq_nil_iff (allWords : List WordEntry) (learned : List String) :
    availableWords allWords learned = [] ↔
      ∀ w ∈ allWords, w.word.jsLower ∈ learned.map String.jsLower := by
  unfold availableWords
  rw [List.filter_eq_nil_iff]
  constructor
  · intro h w hw
    have := h w hw
    simp only [Bool.not_eq_true', Bool.not_eq_false] at this
    rcases List.any_eq_true.mp this with ⟨l, hl, hbeq⟩
    exact List.mem_map.mpr ⟨l, hl, beq_iff_eq.mp hbeq⟩
  · intro h w hw
    rcases List.mem_map.mp (h w hw) with ⟨l, hl, hle⟩
    simp only [Bool.not_eq_true', Bool.not_eq_false]
    exact List.any_eq_true.mpr ⟨l, hl, beq_iff_eq.mpr hle⟩

/-- C1.  Random-policy selection: on a source with a non-empty word list,
getRandomWord returns none exactly when every word's lower-cased term occurs
in the learned list; otherwise it returns a member of the available list
(hence in particular some word, never none, while any term is unlearned). -/
theorem getRandomWord_correct (allWords : List WordEntry) (learned : List String)
    (rand : Nat → Nat) (hne : allWords ≠ [])
    (hrand : ∀ n, 0 < n → rand n < n) :
    (getRandomWord allWords learned rand = none ↔
      ∀ w ∈ allWords, w.word.jsLower ∈ learned.map String.jsLower) ∧
    (∀ w, getRandomWord allWords learned rand = some w →
      w ∈ availableWords allWords learned) := by
  unfold getRandomWord
  by_cases hA : (availableWords allWords learned).length = 0
  · have hall : ∀ w ∈ allWords, w.word.jsLower ∈ learned.map String.jsLower :=
      (availableWords_eq_nil_iff allWords learned).mp (List.length_eq_zero.mp hA)
    rw [if_pos ⟨hA, List.length_pos.mpr hne⟩]
    exact ⟨⟨fun _ => hall, fun _ => rfl⟩, fun w h => by simp at h⟩
  · rw [if_neg (by intro hcon; exact hA hcon.1), if_neg hA]
    have hlt : rand (availableWords allWords learned).length <
        (availableWords allWords learned).length :=
      hrand _ (Nat.pos_of_ne_zero hA)
    have hsome : (availableWords allWords learned)[rand (availableWords allWords learned).length]? =
        some ((availableWords allWords learned).get
          ⟨rand (availableWords allWords learned).length, hlt⟩) := by
      rw [List.getElem?_eq_getElem hlt]
      rfl
    constructor
    · rw [hsome]
      constructor
      · intro h; simp at h
      · intro hall
        exact absurd (List.length_eq_zero.mpr
          ((availableWords_eq_nil_iff allWords learned).mpr hall)) hA
    · intro w hw
      rw [hsome] at hw
      obtain rfl : _ = w := Option.some.inj hw
      exact List.get_mem _ _ hlt

/-- C1 witness: a singleton source with empty progress and the zero index
generator selects the word. -/
theorem getRandomWord_correct_witness :
    ([({ word := "red" } : WordEntry)] ≠ [] ∧ ∀ n, 0 < n → (fun _ => 0) n < n) ∧
    ((getRandomWord [{ word := "red" }] [] (fun _ => 0) = none ↔
      ∀ w ∈ [({ word := "red" } : WordEntry)],
        w.word.jsLower ∈ ([] : List String).map String.jsLower) ∧
    (∀ w, getRandomWord [{ word := "red" }] [] (fun _ => 0) = some w →
      w ∈ availableWords [{ word := "red" }] [])) :=
  ⟨⟨by simp, fun _ h => h⟩,
    getRandomWord_correct [{ word := "red" }] [] (fun _ => 0) (by simp) (fun _ h => h)⟩

/-- C6.  Idempotence of marking learned: a second markWordAsLearned with the
same word changes nothing in the learned collection, in both the
skipped-tracking variant and the mobile variant; moreover one mark never
introduces a case-insensitive duplicate into a duplicate-free learned list. -/
theorem markLearned_idempotent :
    (∀ (p : Progress) (w : WordEntry),
        (markWordAsLearnedProg (markWordAsLearnedProg p w) w).learned =
          (markWordAsLearnedProg p w).learned) ∧
    (∀ (l : List String) (w : WordEntry),
        markWordAsLearnedMobile (markWordAsLearnedMobile l w) w =
          markWordAsLearnedMobile l w) ∧
    (∀ (p : Progress) (w : WordEntry),
        p.learned.Pairwise (fun a b => a.jsLower ≠ b.jsLower) →
        (markWordAsLearnedProg p w).learned.Pairwise (fun a b => a.jsLower ≠ b.jsLower)) := by
  refine ⟨?_, ?_, ?_⟩
  · intro p w
    by_cases h : p.learned.any (fun x => x.jsLower == w.word.jsLower)
    · simp [markWordAsLearnedProg, h]
    · simp [markWordAsLearnedProg, h, List.any_append]
  · intro l w
    by_cases h : l.any (fun x => x.jsLower == w.word.jsLower)
    · simp [markWordAsLearnedMobile, h]
    · simp [markWordAsLearnedMobile, h, List.any_append]
  · intro p w hp
    by_cases h : p.learned.any (fun x => x.jsLower == w.word.jsLower)
    · simpa [markWordAsLearnedProg, h] using hp
    · simp only [markWordAsLearnedProg, h, if_false, Bool.false_eq_true]
      rw [List.pairwise_append]
      refine ⟨hp, List.pairwise_singleton _ _, ?_⟩
      intro a ha b hb
      obtain rfl : b = w.word := by simpa using hb
      intro hcon
      exact h (List.any_eq_true.mpr ⟨a, ha, beq_iff_eq.mpr hcon⟩)

/-- Helper for C3: every single operation preserves case-insensitive
disjointness of learned and skipped. -/
theorem applyOp_preserves_disjoint (p : Progress) (op : ProgOp)
    (h : disjointCI p.learned p.skipped) :
    disjointCI (applyOp p op).learned (applyOp p op).skipped := by
  cases op with
  | learn w =>
    intro a ha b hb
    simp only [applyOp, markWordAsLearnedProg] at ha hb
    have hb' := List.mem_filter.mp hb
    have hbne : b.jsLower ≠ w.word.jsLower := by
      have := hb'.2
      simpa [bne_iff_ne] using this
    by_cases hany : p.learned.any (fun x => x.jsLower == w.word.jsLower)
    · rw [if_pos hany] at ha
      exact h a ha b hb'.1
    · rw [if_neg hany] at ha
      rcases List.mem_append.mp ha with ha' | ha'
      · exact h a ha' b hb'.1
      · obtain rfl : a = w.word := by simpa using ha'
        exact fun hcon => hbne hcon.symm
  | skipOp w =>
    intro a ha b hb
    simp only [applyOp, markWordAsSkippedProg] at ha hb
    by_cases hc : (!p.learned.any (fun x => x.jsLower == w.word.jsLower) &&
        !p.skipped.any (fun x => x.jsLower == w.word.jsLower))
    · rw [if_pos hc] at ha hb
      simp only at ha hb
      rcases List.mem_append.mp hb with hb' | hb'
      · exact h a ha b hb'
      · obtain rfl : b = w.word := by simpa using hb'
        have hlf : p.learned.any (fun x => x.jsLower == w.word.jsLower) = false := by
          have hc' := hc
          simp only [Bool.and_eq_true, Bool.not_eq_true'] at hc'
          exact hc'.1
        intro hcon
        have hany : p.learned.any (fun x => x.jsLower == w.word.jsLower) = true :=
          List.any_eq_true.mpr ⟨a, ha, beq_iff_eq.mpr hcon⟩
        rw [hlf] at hany
        exact Bool.false_ne_true hany
    · rw [if_neg hc] at ha hb
      exact h a ha b hb
  | unlearn t =>
    intro a ha b hb
    simp only [applyOp, unmarkLearnedProg] at ha hb
    exact h a (List.mem_filter.mp ha).1 b hb
  | unskip t =>
    intro a ha b hb
    simp only [applyOp, unmarkSkippedProg] at ha hb
    exact h a ha b (List.mem_filter.mp hb).1
  | reset =>
    intro a ha
    simp [applyOp, resetProg, emptyProgress] at ha

/-- C3.  Mutual exclusion: from the fresh empty record, any sequence of mark,
unmark and reset operations keeps learned and skipped case-insensitively
disjoint; and immediately after markWordAsLearned the marked term's lower
case form is absent from skipped, for every starting record. -/
theorem progress_mutual_exclusion :
    (∀ ops : List ProgOp, disjointCI (applyOps ops).learned (applyOps ops).skipped) ∧
    (∀ (p : Progress) (w : WordEntry),
        w.word.jsLower ∉ (markWordAsLearnedProg p w).skipped.map String.jsLower) := by
  constructor
  · intro ops
    suffices hgen : ∀ (l : List ProgOp) (p : Progress), disjointCI p.learned p.skipped →
        disjointCI (l.foldl applyOp p).learned (l.foldl applyOp p).skipped by
      exact hgen ops emptyProgress (by intro a ha; simp [emptyProgress] at ha)
    intro l
    induction l with
    | nil => intro p hp; exact hp
    | cons op rest ih =>
      intro p hp
      exact ih (applyOp p op) (applyOp_preserves_disjoint p op hp)
  · intro p w hmem
    rcases List.mem_map.mp hmem with ⟨b, hb, hbl⟩
    simp only [markWordAsLearnedProg] at hb
    have := (List.mem_filter.mp hb).2
    rw [hbl] at this
    simp at this

/-- C9.  In app-sources.js, marking a word learned or skipped while no source
is selected or the selected source has no progress record is a silent no-op:
the whole state, in particular the progress map, is returned unchanged, and no
empty record is created. -/
theorem mark_without_record_noop (st : AppState) (w : WordEntry)
    (h : st.currentSource = "" ∨ st.progress.lookup st.currentSource = none) :
    markWordAsLearnedApp st w = st ∧ markWordAsSkippedApp st w = st := by
  have hcur : getCurrentSourceProgress st = none := by
    unfold getCurrentSourceProgress
    rcases h with h | h
    · rw [if_pos h]
    · by_cases h' : st.currentSource = ""
      · rw [if_pos h']
      · rw [if_neg h']; exact h
  constructor
  · unfold markWordAsLearnedApp; rw [hcur]
  · unfold markWordAsSkippedApp; rw [hcur]

/-- C9 witness: a state with a selected source but no record for it is left
untouched by both marking operations. -/
theorem mark_without_record_noop_witness :
    (({ sources := [], progress := [], currentSource := "A" } : AppState).currentSource = "" ∨
      ({ sources := [], progress := [], currentSource := "A" } : AppState).progress.lookup "A" = none) ∧
    (markWordAsLearnedApp { sources := [], progress := [], currentSource := "A" } { word := "red" } =
      { sources := [], progress := [], currentSource := "A" } ∧
     markWordAsSkippedApp { sources := [], progress := [], currentSource := "A" } { word := "red" } =
      { sources := [], progress := [], currentSource := "A" }) :=
  ⟨Or.inr rfl,
    mark_without_record_noop { sources := [], progress := [], currentSource := "A" }
      { word := "red" } (Or.inr rfl)⟩

/-- Helper: lookup distributes over append. -/
theorem lookup_append {α β : Type} [BEq α] (m1 m2 : List (α × β)) (k : α) :
    (m1 ++ m2).lookup k =
      match m1.lookup k with
      | some v => some v
      | none => m2.lookup k := by
  induction m1 with
  | nil => simp
  | cons kv rest ih =>
    obtain ⟨k0, v0⟩ := kv
    rw [List.cons_append, List.lookup_cons, List.lookup_cons]
    cases hk : (k == k0) <;> simp [ih]

/-- Helper: deleting one key leaves lookups of other keys unchanged. -/
theorem lookup_deleteKey_ne {β : Type} (m : List (String × β)) (name k : String)
    (h : k ≠ name) : (deleteKey m name).lookup k = m.lookup k := by
  induction m with
  | nil => rfl
  | cons kv rest ih =>
    obtain ⟨k0, v0⟩ := kv
    by_cases h0 : k0 = name
    · have hf : (k0 != name) = false := by simp [h0]
      have hke : (k == k0) = false := by rw [h0]; exact beq_eq_false_iff_ne.mpr h
      simp only [deleteKey, List.filter_cons, hf] at ih ⊢
      rw [List.lookup_cons, hke]
      exact ih
    · have hf : (k0 != name) = true := by simp [h0]
      simp only [deleteKey] at ih ⊢
      rw [List.filter_cons, if_pos hf]
      cases hk : (k == k0) <;> simp [List.lookup_cons, hk, ih]

/-- Helper: after deleting a key its lookup is none. -/
theorem lookup_deleteKey_self {β : Type} (m : List (String × β)) (name : String) :
    (deleteKey m name).lookup name = none := by
  induction m with
  | nil => rfl
  | cons kv rest ih =>
    obtain ⟨k0, v0⟩ := kv
    by_cases h0 : k0 = name
    · have hf : (k0 != name) = false := by simp [h0]
      simp only [deleteKey, List.filter_cons, hf] at ih ⊢
      exact ih
    · have hf : (k0 != name) = true := by simp [h0]
      have hke : (name == k0) = false := beq_eq_false_iff_ne.mpr (Ne.symm h0)
      simp only [deleteKey] at ih ⊢
      rw [List.filter_cons, if_pos hf]
      simp [List.lookup_cons, hke, ih]

/-- Helper: overwriting the value stored at one key leaves lookups of other
keys unchanged. -/
theorem lookup_upsertKey_ne {β : Type} (m : List (String × β)) (name k : String)
    (v : β) (h : k ≠ name) : (upsertKey m name v).lookup k = m.lookup k := by
  unfold upsertKey
  by_cases hs : (m.lookup name).isSome
  · rw [if_pos hs]
    clear hs
    induction m with
    | nil => rfl
    | cons kv rest ih =>
      obtain ⟨k0, v0⟩ := kv
      rw [List.map_cons]
      by_cases h0 : k0 = name
      · have hb : (k0 == name) = true := beq_iff_eq.mpr h0
        have hke : (k == k0) = false := by rw [h0]; exact beq_eq_false_iff_ne.mpr h
        simp only [beq_iff_eq] at ih
        simp [hb, List.lookup_cons, hke, ih]
      · have hb : (k0 == name) = false := beq_eq_false_iff_ne.mpr h0
        simp only [beq_iff_eq] at ih
        cases hk : (k == k0) <;> simp [hb, List.lookup_cons, hk, ih]
  · rw [if_neg hs]
    rw [lookup_append]
    cases hm : m.lookup k with
    | some v0 => simp
    | none =>
      have hke : (k == name) = false := beq_eq_false_iff_ne.mpr h
      simp [List.lookup_cons, hke]

/-- Helper: looking up an absent key after appending it finds the new value. -/
theorem lookup_append_fresh {β : Type} (m : List (String × β)) (name : String)
    (v : β) (h : m.lookup name = none) :
    (m ++ [(name, v)]).lookup name = some v := by
  rw [lookup_append, h]
  simp [List.lookup_cons]

/-- C5 counterexample: deleteSource on a source that has a progress record
does change the progress map, removing the deleted source's record. -/
theorem deleteSource_clears_progress_cex :
    (deleteSource exState "A").2.progress ≠ exState.progress ∧
    (deleteSource exState "A").2.progress.lookup "A" = none ∧
    exState.progress.lookup "A" =
      some { learned := ["red"], skipped := [], currentIndex := 0 } := by
  refine ⟨?_, ?_, ?_⟩ <;> decide

/-- C5 (amended).  Progress effects of the store operations: reads
(getSourceWords) take no state at all; addSource leaves every other progress
record unchanged, keeps an existing record of the saved source, and creates
an empty record only when saving a valid list under a name with no record;
deleteSource leaves every other progress record unchanged but removes the
deleted source's record. -/
theorem store_ops_progress_effect :
    (∀ (st : AppState) (name : String) (words : List WordEntry) (now : Nat) (k : String),
        k ≠ name →
        (addSource st name words now).2.progress.lookup k = st.progress.lookup k) ∧
    (∀ (st : AppState) (name : String) (words : List WordEntry) (now : Nat)
        (p : Progress), st.progress.lookup name = some p →
        (addSource st name words now).2.progress.lookup name = some p) ∧
    (∀ (st : AppState) (name : String) (words : List WordEntry) (now : Nat),
        name ≠ "" → words ≠ [] → st.progress.lookup name = none →
        (addSource st name words now).2.progress.lookup name = some emptyProgress) ∧
    (∀ (st : AppState) (name k : String), k ≠ name →
        (deleteSource st name).2.progress.lookup k = st.progress.lookup k) ∧
    (∀ (st : AppState) (name : String), (st.sources.lookup name).isSome →
        (deleteSource st name).2.progress.lookup name = none) := by
  refine ⟨?_, ?_, ?_, ?_, ?_⟩
  · intro st name words now k hk
    unfold addSource
    by_cases hv : name = "" ∨ words.length = 0
    · rw [if_pos hv]
    · rw [if_neg hv]
      simp only
      by_cases hp : (st.progress.lookup name).isNone
      · rw [if_pos hp, lookup_append]
        cases hm : st.progress.lookup k with
        | some v => simp
        | none =>
          have hke : (k == name) = false := beq_eq_false_iff_ne.mpr hk
          simp [List.lookup_cons, hke]
      · rw [if_neg hp]
  · intro st name words now p hp
    unfold addSource
    by_cases hv : name = "" ∨ words.length = 0
    · rw [if_pos hv]; exact hp
    · rw [if_neg hv]
      simp only
      have : ¬ (st.progress.lookup name).isNone := by rw [hp]; simp
      rw [if_neg this]
      exact hp
  · intro st name words now hn hw hnone
    unfold addSource
    have hv : ¬ (name = "" ∨ words.length = 0) := by
      rintro (h | h)
      · exact hn h
      · exact hw (List.length_eq_zero.mp h)
    rw [if_neg hv]
    simp only
    rw [if_pos (by rw [hnone]; rfl)]
    exact lookup_append_fresh st.progress name emptyProgress hnone
  · intro st name k hk
    unfold deleteSource
    cases hs : st.sources.lookup name with
    | some r =>
      simp only
      by_cases hp : (st.progress.lookup name).isSome
      · rw [if_pos hp]
        exact lookup_deleteKey_ne st.progress name k hk
      · rw [if_neg hp]
    | none => rfl
  · intro st name hs
    unfold deleteSource
    cases hm : st.sources.lookup name with
    | some r =>
      simp only
      by_cases hp : (st.progress.lookup name).isSome
      · rw [if_pos hp]
        exact lookup_deleteKey_self st.progress name
      · rw [if_neg hp]
        rwa [Option.not_isSome_iff_eq_none] at hp
    | none => rw [hm] at hs; simp at hs

/-- Helper: skipping whitespace ignores a fully-whitespace prefix. -/
theorem skipWs_append (pre X : List Char) (h : ∀ x ∈ pre, isWsChar x = true) :
    skipWs (pre ++ X) = skipWs X := by
  induction pre with
  | nil => rfl
  | cons c rest ih =>
    have hc : isWsChar c = true := h c (by simp)
    rw [List.cons_append, skipWs, if_pos hc]
    exact ih (fun x hx => h x (by simp [hx]))

/-- Helper: skipping whitespace stops at a non-whitespace head. -/
theorem skipWs_cons_nonws (c : Char) (l : List Char) (h : isWsChar c = false) :
    skipWs (c :: l) = c :: l := by
  rw [skipWs, if_neg (by simp [h])]

/-- Helper: an indentation run has the given length. -/
theorem spaces_length (n : Nat) : (spaces n).length = n := by
  induction n with
  | zero => rfl
  | succ n ih => simp [spaces, ih]

/-- Helper: an indentation run is all whitespace. -/
theorem spaces_all_ws (n : Nat) : ∀ x ∈ spaces n, isWsChar x = true := by
  induction n with
  | zero => intro x hx; simp [spaces] at hx
  | succ n ih =>
    intro x hx
    rw [spaces] at hx
    rcases List.mem_cons.mp hx with rfl | hx
    · rfl
    · exact ih x hx

/-- Helper: split never returns an empty list of lines. -/
theorem splitNl_ne_nil (s : List Char) : splitNl s ≠ [] := by
  induction s with
  | nil => simp [splitNl]
  | cons c rest ih =>
    rw [splitNl]
    by_cases hc : c == '\n'
    · simp [hc]
    · rw [if_neg hc]
      cases h : splitNl rest with
      | nil => simp
      | cons l ls => simp

/-- Helper: join is a left inverse of split. -/
theorem joinNl_splitNl (s : List Char) : joinNl (splitNl s) = s := by
  induction s with
  | nil => rfl
  | cons c rest ih =>
    rw [splitNl]
    by_cases hc : c == '\n'
    · rw [if_pos hc]
      obtain rfl : c = '\n' := beq_iff_eq.mp hc
      cases h : splitNl rest with
      | nil => exact absurd h (splitNl_ne_nil rest)
      | cons l ls =>
        rw [h] at ih
        simp [joinNl, ih]
    · rw [if_neg hc]
      cases h : splitNl rest with
      | nil => exact absurd h (splitNl_ne_nil rest)
      | cons l ls =>
        rw [h] at ih
        cases ls with
        | nil =>
          simp only [joinNl] at ih ⊢
          rw [ih]
        | cons l2 ls2 =>
          simp only [joinNl] at ih ⊢
          rw [List.cons_append, ih]

/-- Helper: splitting at the first newline when the prefix has none. -/
theorem splitNl_append (a b : List Char) (h : '\n' ∉ a) :
    splitNl (a ++ '\n' :: b) = a :: splitNl b := by
  induction a with
  | nil => simp [splitNl]
  | cons c rest ih =>
    have hc : ¬ (c == '\n') := by
      intro hcon
      exact h (by simp [beq_iff_eq.mp hcon])
    rw [List.cons_append, splitNl, if_neg hc,
      ih (fun hm => h (List.mem_cons_of_mem c hm))]

/-- Helper: a newline-free text splits into a single line. -/
theorem splitNl_single (s : List Char) (h : '\n' ∉ s) : splitNl s = [s] := by
  induction s with
  | nil => rfl
  | cons c rest ih =>
    have hc : ¬ (c == '\n') := by
      intro hcon
      exact h (by simp [beq_iff_eq.mp hcon])
    rw [splitNl, if_neg hc, ih (fun hm => h (List.mem_cons_of_mem c hm))]

/-- Helper: the head surviving dropWhile fails the predicate. -/
theorem dropWhile_head_false {α : Type} (p : α → Bool) (l : List α) (d : α)
    (t : List α) (h : l.dropWhile p = d :: t) : p d = false := by
  induction l with
  | nil => simp [List.dropWhile] at h
  | cons c rest ih =>
    rw [List.dropWhile_cons] at h
    by_cases hc : p c
    · rw [if_pos hc] at h; exact ih h
    · rw [if_neg hc] at h
      obtain rfl : c = d := (List.cons.injEq _ _ _ _ ▸ h).1
      exact Bool.not_eq_true _ ▸ (by simpa using hc)

/-- Helper: dropWhile keeps an element failing the predicate. -/
theorem dropWhile_ne_nil_of_mem {α : Type} (p : α → Bool) (l : List α) (x : α)
    (hx : x ∈ l) (hp : p x = false) : l.dropWhile p ≠ [] := by
  induction l with
  | nil => simp at hx
  | cons c rest ih =>
    rw [List.dropWhile_cons]
    rcases List.mem_cons.mp hx with rfl | hx'
    · rw [if_neg (by simp [hp])]
      simp
    · by_cases hc : p c
      · rw [if_pos hc]; exact ih hx'
      · rw [if_neg hc]; simp

/-- Helper: the head of a trimmed text is not whitespace. -/
theorem trimChars_head_false (l : List Char) (d : Char) (t : List Char)
    (h : trimChars l = d :: t) : isWsChar d = false := by
  unfold trimChars at h
  have h' : ((l.dropWhile isWsChar).reverse).dropWhile isWsChar = (d :: t).reverse := by
    have h2 := congrArg List.reverse h
    rwa [List.reverse_reverse] at h2
  obtain ⟨pre2, hpre2⟩ := List.dropWhile_suffix (l := (l.dropWhile isWsChar).reverse) isWsChar
  rw [h'] at hpre2
  have hD : (d :: t) ++ pre2.reverse = l.dropWhile isWsChar := by
    have h2 := congrArg List.reverse hpre2
    rwa [List.reverse_append, List.reverse_reverse, List.reverse_reverse] at h2
  exact dropWhile_head_false isWsChar l d (t ++ pre2.reverse)
    (by rw [← hD, List.cons_append])

/-- Helper: the last character of a trimmed text is not whitespace. -/
theorem trimChars_last_false (l : List Char) (d : Char) (t : List Char)
    (h : (trimChars l).reverse = d :: t) : isWsChar d = false := by
  unfold trimChars at h
  rw [List.reverse_reverse] at h
  exact dropWhile_head_false isWsChar _ d t h

/-- Helper: trimming is idempotent. -/
theorem trimChars_idem (l : List Char) : trimChars (trimChars l) = trimChars l := by
  rcases hT : trimChars l with _ | ⟨d, t⟩
  · rfl
  · have hd : isWsChar d = false := trimChars_head_false l d t hT
    rcases hR : (d :: t).reverse with _ | ⟨e, u⟩
    · simp at hR
    · have he : isWsChar e = false := by
        apply trimChars_last_false l e u
        rw [hT, hR]
      unfold trimChars
      rw [List.dropWhile_cons, if_neg (by simp [hd]), hR, List.dropWhile_cons,
        if_neg (by simp [he]), ← hR, List.reverse_reverse]

/-- Helper: trimming ignores a leading whitespace character. -/
theorem trimChars_cons_ws (c : Char) (l : List Char) (h : isWsChar c = true) :
    trimChars (c :: l) = trimChars l := by
  unfold trimChars
  rw [List.dropWhile_cons, if_pos h]

/-- Helper: a rendered value starts with a significant character that is not
a hash or a closing bracket. -/
theorem render_head (i : Nat) (v : Json) :
    ∃ c cs, render i v = c :: cs ∧ isWsChar c = false ∧ c ≠ '#' ∧ c ≠ ']' ∧ c ≠ '}' := by
  cases v with
  | null =>
    exact ⟨'n', ['u', 'l', 'l'], by simp [render], by decide, by decide, by decide, by decide⟩
  | bool b =>
    cases b with
    | true =>
      exact ⟨'t', ['r', 'u', 'e'], by simp [render], by decide, by decide, by decide, by decide⟩
    | false =>
      exact ⟨'f', ['a', 'l', 's', 'e'], by simp [render], by decide, by decide, by decide,
        by decide⟩
  | str s =>
    exact ⟨'"', escape s ++ ['"'], by simp [render], by decide, by decide, by decide, by decide⟩
  | arr es =>
    cases es with
    | nil => exact ⟨'[', [']'], by simp [render], by decide, by decide, by decide, by decide⟩
    | cons v vs =>
      exact ⟨'[', renderElems i v vs ++ '\n' :: (spaces i ++ [']']), by simp [render],
        by decide, by decide, by decide, by decide⟩
  | obj fs =>
    cases fs with
    | nil => exact ⟨'{', ['}'], by simp [render], by decide, by decide, by decide, by decide⟩
    | cons f fs =>
      exact ⟨'{', renderFields i f fs ++ '\n' :: (spaces i ++ ['}']), by simp [render],
        by decide, by decide, by decide, by decide⟩

/-- Helper: one-step unfolding of the string-body parser on a cons cell. -/
theorem parseStrBody_cons (c : Char) (rest : List Char) :
    parseStrBody (c :: rest) =
      if c == '"' then some ([], rest)
      else if c == '\\' then
        match rest with
        | [] => none
        | e :: rest2 =>
          match unescChar e with
          | some u => (parseStrBody rest2).map (fun p => (u :: p.1, p.2))
          | none => none
      else (parseStrBody rest).map (fun p => (c :: p.1, p.2)) := by
  rw [parseStrBody.eq_def]

/-- Helper: the string parser undoes the escaping of a string body. -/
theorem parseStrBody_escape (s : List Char) : ∀ rest : List Char,
    parseStrBody (escape s ++ '"' :: rest) = some (s, rest) := by
  induction s with
  | nil =>
    intro rest
    rw [escape, List.nil_append, parseStrBody_cons]
    simp
  | cons c cs ih =>
    intro rest
    rw [escape, List.append_assoc]
    by_cases h1 : c = '"'
    · subst h1
      simp [escChar, parseStrBody_cons, unescChar, ih]
    · by_cases h2 : c = '\\'
      · subst h2
        simp [escChar, parseStrBody_cons, unescChar, ih]
      · by_cases h3 : c = '\n'
        · subst h3
          simp [escChar, parseStrBody_cons, unescChar, ih]
        · by_cases h4 : c = '\t'
          · subst h4
            simp [escChar, parseStrBody_cons, unescChar, ih]
          · by_cases h5 : c = '\r'
            · subst h5
              simp [escChar, parseStrBody_cons, unescChar, ih]
            · have e1 : escChar c = [c] := by
                rw [escChar, if_neg (by simp [h1]), if_neg (by simp [h2]),
                  if_neg (by simp [h3]), if_neg (by simp [h4]), if_neg (by simp [h5])]
              rw [e1, List.cons_append, List.nil_append, parseStrBody_cons]
              simp [h1, h2, ih]

/-- Helper: one-step unfolding of the value parser with positive fuel. -/
theorem parseVal_succ (fuel : Nat) (input : List Char) :
    parseVal (fuel + 1) input =
      match skipWs input with
      | 'n' :: 'u' :: 'l' :: 'l' :: rest => some (.null, rest)
      | 't' :: 'r' :: 'u' :: 'e' :: rest => some (.bool true, rest)
      | 'f' :: 'a' :: 'l' :: 's' :: 'e' :: rest => some (.bool false, rest)
      | '"' :: rest => (parseStrBody rest).map (fun p => (.str p.1, p.2))
      | '[' :: rest =>
        (match skipWs rest with
         | ']' :: rest2 => some (.arr [], rest2)
         | _ => (parseElems fuel rest).map (fun p => (.arr p.1, p.2)))
      | '{' :: rest =>
        (match skipWs rest with
         | '}' :: rest2 => some (.obj [], rest2)
         | _ => (parseFields fuel rest).map (fun p => (.obj p.1, p.2)))
      | _ => none := by
  rw [parseVal.eq_def]

/-- Helper: one-step unfolding of the array-elements parser with positive
fuel. -/
theorem parseElems_succ (fuel : Nat) (input : List Char) :
    parseElems (fuel + 1) input =
      match parseVal fuel input with
      | none => none
      | some (v, rest) =>
        match skipWs rest with
        | ',' :: rest2 => (parseElems fuel rest2).map (fun p => (v :: p.1, p.2))
        | ']' :: rest2 => some ([v], rest2)
        | _ => none := by
  rw [parseElems.eq_def]

/-- Helper: one-step unfolding of the object-entries parser with positive
fuel. -/
theorem parseFields_succ (fuel : Nat) (input : List Char) :
    parseFields (fuel + 1) input =
      match skipWs input with
      | '"' :: rest =>
        (match parseStrBody rest with
         | none => none
         | some (k, rest1) =>
           match skipWs rest1 with
           | ':' :: rest2 =>
             (match parseVal fuel rest2 with
              | none => none
              | some (v, rest3) =>
                match skipWs rest3 with
                | ',' :: rest4 => (parseFields fuel rest4).map (fun p => ((k, v) :: p.1, p.2))
                | '}' :: rest4 => some ([(k, v)], rest4)
                | _ => none)
           | _ => none)
      | _ => none := by
  rw [parseFields.eq_def]

/-- Helper: a newline followed by an indentation run is all whitespace. -/
theorem nl_spaces_ws (n : Nat) : ∀ x ∈ ('\n' :: spaces n), isWsChar x = true := by
  intro x hx
  rcases List.mem_cons.mp hx with rfl | hx
  · rfl
  · exact spaces_all_ws n x hx

/-- Helper: the fuelled parsers read back exactly what the renderer produced,
for every sufficient fuel, any whitespace prefix, and any continuation. -/
theorem parse_render_all : ∀ fuel : Nat,
    (∀ (v : Json) (i : Nat) (pre rest : List Char),
      (∀ x ∈ pre, isWsChar x = true) → (render i v).length < fuel →
      parseVal fuel (pre ++ (render i v ++ rest)) = some (v, rest)) ∧
    (∀ (v : Json) (vs : List Json) (i : Nat) (rest : List Char),
      (renderElems i v vs).length < fuel →
      parseElems fuel (renderElems i v vs ++ '\n' :: (spaces i ++ (']' :: rest))) =
        some (v :: vs, rest)) ∧
    (∀ (f : List Char × Json) (fs : List (List Char × Json)) (i : Nat) (rest : List Char),
      (renderFields i f fs).length < fuel →
      parseFields fuel (renderFields i f fs ++ '\n' :: (spaces i ++ ('}' :: rest))) =
        some (f :: fs, rest)) := by
  intro fuel
  induction fuel with
  | zero =>
    refine ⟨?_, ?_, ?_⟩
    · intro v i pre rest _ hlen; exact absurd hlen (Nat.not_lt_zero _)
    · intro v vs i rest hlen; exact absurd hlen (Nat.not_lt_zero _)
    · intro f fs i rest hlen; exact absurd hlen (Nat.not_lt_zero _)
  | succ fuel ih =>
    obtain ⟨ihV, ihE, ihF⟩ := ih
    refine ⟨?_, ?_, ?_⟩
    · intro v i pre rest hpre hlen
      have hsw : skipWs (pre ++ (render i v ++ rest)) = render i v ++ rest := by
        rw [skipWs_append pre _ hpre]
        obtain ⟨c, cs, hc, hcw, _, _, _⟩ := render_head i v
        rw [hc, List.cons_append, skipWs_cons_nonws c _ hcw]
      rw [parseVal_succ, hsw]
      cases v with
      | null => simp [render]
      | bool b => cases b <;> simp [render]
      | str s => simp [render, parseStrBody_escape]
      | arr es =>
        cases es with
        | nil => simp [render, skipWs, isWsChar]
        | cons v0 vs =>
          have hre : render i (.arr (v0 :: vs)) ++ rest =
              '[' :: (renderElems i v0 vs ++ '\n' :: (spaces i ++ (']' :: rest))) := by
            simp [render]
          rw [hre]
          have hlen' : (renderElems i v0 vs).length < fuel := by
            simp only [render, List.length_cons, List.length_append,
              spaces_length] at hlen
            omega
          obtain ⟨c, cs, hc, hcw, _, hc1, _⟩ := render_head (i + 2) v0
          have hsw2 : ∃ X, skipWs (renderElems i v0 vs ++ '\n' :: (spaces i ++ (']' :: rest))) =
              c :: X := by
            cases vs with
            | nil =>
              refine ⟨cs ++ ('\n' :: (spaces i ++ (']' :: rest))), ?_⟩
              have : renderElems i v0 [] ++ '\n' :: (spaces i ++ (']' :: rest)) =
                  ('\n' :: spaces (i + 2)) ++
                    (render (i + 2) v0 ++ ('\n' :: (spaces i ++ (']' :: rest)))) := by
                simp [renderElems]
              rw [this, skipWs_append _ _ (nl_spaces_ws (i + 2)), hc, List.cons_append,
                skipWs_cons_nonws c _ hcw]
            | cons w ws =>
              refine ⟨cs ++ (',' :: (renderElems i w ws ++ '\n' :: (spaces i ++ (']' :: rest)))), ?_⟩
              have : renderElems i v0 (w :: ws) ++ '\n' :: (spaces i ++ (']' :: rest)) =
                  ('\n' :: spaces (i + 2)) ++
                    (render (i + 2) v0 ++
                      (',' :: (renderElems i w ws ++ '\n' :: (spaces i ++ (']' :: rest))))) := by
                simp [renderElems]
              rw [this, skipWs_append _ _ (nl_spaces_ws (i + 2)), hc, List.cons_append,
                skipWs_cons_nonws c _ hcw]
          obtain ⟨X, hX⟩ := hsw2
          simp only []
          rw [hX]
          split
          · rename_i rest2 heq
            exact absurd (List.cons.injEq _ _ _ _ ▸ heq).1 hc1
          · rw [ihE v0 vs i rest hlen']
            rfl
      | obj fs0 =>
        cases fs0 with
        | nil => simp [render, skipWs, isWsChar]
        | cons f0 fs =>
          have hre : render i (.obj (f0 :: fs)) ++ rest =
              '{' :: (renderFields i f0 fs ++ '\n' :: (spaces i ++ ('}' :: rest))) := by
            simp [render]
          rw [hre]
          have hlen' : (renderFields i f0 fs).length < fuel := by
            simp only [render, List.length_cons, List.length_append,
              spaces_length] at hlen
            omega
          obtain ⟨k0, v0⟩ := f0
          have hsw2 : ∃ X, skipWs (renderFields i (k0, v0) fs ++ '\n' :: (spaces i ++ ('}' :: rest))) =
              '"' :: X := by
            cases fs with
            | nil =>
              refine ⟨escape k0 ++ '"' :: ':' :: ' ' :: render (i + 2) v0 ++
                ('\n' :: (spaces i ++ ('}' :: rest))), ?_⟩
              have : renderFields i (k0, v0) [] ++ '\n' :: (spaces i ++ ('}' :: rest)) =
                  ('\n' :: spaces (i + 2)) ++
                    ('"' :: (escape k0 ++ '"' :: ':' :: ' ' :: render (i + 2) v0 ++
                      ('\n' :: (spaces i ++ ('}' :: rest))))) := by
                simp [renderFields]
              rw [this, skipWs_append _ _ (nl_spaces_ws (i + 2)),
                skipWs_cons_nonws _ _ (by decide)]
            | cons f1 fs1 =>
              refine ⟨escape k0 ++ '"' :: ':' :: ' ' :: render (i + 2) v0 ++
                (',' :: (renderFields i f1 fs1 ++ '\n' :: (spaces i ++ ('}' :: rest)))), ?_⟩
              have : renderFields i (k0, v0) (f1 :: fs1) ++ '\n' :: (spaces i ++ ('}' :: rest)) =
                  ('\n' :: spaces (i + 2)) ++
                    ('"' :: (escape k0 ++ '"' :: ':' :: ' ' :: render (i + 2) v0 ++
                      (',' :: (renderFields i f1 fs1 ++ '\n' :: (spaces i ++ ('}' :: rest)))))) := by
                simp [renderFields]
              rw [this, skipWs_append _ _ (nl_spaces_ws (i + 2)),
                skipWs_cons_nonws _ _ (by decide)]
          obtain ⟨X, hX⟩ := hsw2
          simp only []
          rw [hX]
          split
          · rename_i rest2 heq
            exact absurd (List.cons.injEq _ _ _ _ ▸ heq).1 (by decide)
          · rw [ihF (k0, v0) fs i rest hlen']
            rfl
    · intro v vs i rest hlen
      rw [parseElems_succ]
      cases vs with
      | nil =>
        have hre : renderElems i v [] ++ '\n' :: (spaces i ++ (']' :: rest)) =
            ('\n' :: spaces (i + 2)) ++
              (render (i + 2) v ++ ('\n' :: (spaces i ++ (']' :: rest)))) := by
          simp [renderElems]
        have hlenV : (render (i + 2) v).length < fuel := by
          simp only [renderElems, List.length_cons, List.length_append,
            spaces_length] at hlen
          omega
        rw [hre, ihV v (i + 2) _ _ (nl_spaces_ws (i + 2)) hlenV]
        have hsw : skipWs ('\n' :: (spaces i ++ (']' :: rest))) = ']' :: rest := by
          rw [show ('\n' :: (spaces i ++ (']' :: rest))) =
            ('\n' :: spaces i) ++ (']' :: rest) from by simp,
            skipWs_append _ _ (nl_spaces_ws i), skipWs_cons_nonws _ _ (by decide)]
        simp [hsw]
      | cons w ws =>
        have hre : renderElems i v (w :: ws) ++ '\n' :: (spaces i ++ (']' :: rest)) =
            ('\n' :: spaces (i + 2)) ++
              (render (i + 2) v ++
                (',' :: (renderElems i w ws ++ '\n' :: (spaces i ++ (']' :: rest))))) := by
          simp [renderElems]
        have hlenV : (render (i + 2) v).length < fuel := by
          simp only [renderElems, List.length_cons, List.length_append,
            spaces_length] at hlen
          omega
        have hlenE : (renderElems i w ws).length < fuel := by
          simp only [renderElems, List.length_cons, List.length_append,
            spaces_length] at hlen
          omega
        rw [hre, ihV v (i + 2) _ _ (nl_spaces_ws (i + 2)) hlenV]
        have hsw : skipWs (',' :: (renderElems i w ws ++ '\n' :: (spaces i ++ (']' :: rest)))) =
            ',' :: (renderElems i w ws ++ '\n' :: (spaces i ++ (']' :: rest))) :=
          skipWs_cons_nonws _ _ (by decide)
        simp [hsw, ihE w ws i rest hlenE]
    · intro f fs i rest hlen
      obtain ⟨k, v⟩ := f
      rw [parseFields_succ]
      cases fs with
      | nil =>
        have hre : renderFields i (k, v) [] ++ '\n' :: (spaces i ++ ('}' :: rest)) =
            ('\n' :: spaces (i + 2)) ++
              ('"' :: (escape k ++ '"' :: (':' :: (' ' :: (render (i + 2) v ++
                ('\n' :: (spaces i ++ ('}' :: rest)))))))) := by
          simp [renderFields]
        have hlenV : (render (i + 2) v).length < fuel := by
          simp only [renderFields, List.length_cons, List.length_append,
            spaces_length, escape] at hlen
          omega
        rw [hre]
        have hswIn : skipWs (('\n' :: spaces (i + 2)) ++
            ('"' :: (escape k ++ '"' :: (':' :: (' ' :: (render (i + 2) v ++
              ('\n' :: (spaces i ++ ('}' :: rest))))))))) =
            '"' :: (escape k ++ '"' :: (':' :: (' ' :: (render (i + 2) v ++
              ('\n' :: (spaces i ++ ('}' :: rest))))))) := by
          rw [skipWs_append _ _ (nl_spaces_ws (i + 2)), skipWs_cons_nonws _ _ (by decide)]
        rw [hswIn]
        simp only []
        rw [parseStrBody_escape]
        simp only []
        have hsw2 : skipWs (':' :: (' ' :: (render (i + 2) v ++
            ('\n' :: (spaces i ++ ('}' :: rest)))))) =
            ':' :: (' ' :: (render (i + 2) v ++ ('\n' :: (spaces i ++ ('}' :: rest))))) :=
          skipWs_cons_nonws _ _ (by decide)
        rw [hsw2]
        simp only []
        have hVal : parseVal fuel (' ' :: (render (i + 2) v ++
            ('\n' :: (spaces i ++ ('}' :: rest))))) =
            some (v, '\n' :: (spaces i ++ ('}' :: rest))) := by
          have : (' ' :: (render (i + 2) v ++ ('\n' :: (spaces i ++ ('}' :: rest))))) =
              [' '] ++ (render (i + 2) v ++ ('\n' :: (spaces i ++ ('}' :: rest)))) := by
            simp
          rw [this]
          exact ihV v (i + 2) [' '] _ (by intro x hx; simp at hx; subst hx; rfl) hlenV
        rw [hVal]
        have hsw3 : skipWs ('\n' :: (spaces i ++ ('}' :: rest))) = '}' :: rest := by
          rw [show ('\n' :: (spaces i ++ ('}' :: rest))) =
            ('\n' :: spaces i) ++ ('}' :: rest) from by simp,
            skipWs_append _ _ (nl_spaces_ws i), skipWs_cons_nonws _ _ (by decide)]
        simp [hsw3]
      | cons f1 fs1 =>
        have hre : renderFields i (k, v) (f1 :: fs1) ++ '\n' :: (spaces i ++ ('}' :: rest)) =
            ('\n' :: spaces (i + 2)) ++
              ('"' :: (escape k ++ '"' :: (':' :: (' ' :: (render (i + 2) v ++
                (',' :: (renderFields i f1 fs1 ++ '\n' :: (spaces i ++ ('}' :: rest))))))))) := by
          simp [renderFields]
        have hlenV : (render (i + 2) v).length < fuel := by
          simp only [renderFields, List.length_cons, List.length_append,
            spaces_length, escape] at hlen
          omega
        have hlenF : (renderFields i f1 fs1).length < fuel := by
          simp only [renderFields, List.length_cons, List.length_append,
            spaces_length, escape] at hlen
          omega
        rw [hre]
        have hswIn : skipWs (('\n' :: spaces (i + 2)) ++
            ('"' :: (escape k ++ '"' :: (':' :: (' ' :: (render (i + 2) v ++
              (',' :: (renderFields i f1 fs1 ++ '\n' :: (spaces i ++ ('}' :: rest)))))))))) =
            '"' :: (escape k ++ '"' :: (':' :: (' ' :: (render (i + 2) v ++
              (',' :: (renderFields i f1 fs1 ++ '\n' :: (spaces i ++ ('}' :: rest))))))))  := by
          rw [skipWs_append _ _ (nl_spaces_ws (i + 2)), skipWs_cons_nonws _ _ (by decide)]
        rw [hswIn]
        simp only []
        rw [parseStrBody_escape]
        simp only []
        have hsw2 : skipWs (':' :: (' ' :: (render (i + 2) v ++
            (',' :: (renderFields i f1 fs1 ++ '\n' :: (spaces i ++ ('}' :: rest))))))) =
            ':' :: (' ' :: (render (i + 2) v ++
              (',' :: (renderFields i f1 fs1 ++ '\n' :: (spaces i ++ ('}' :: rest)))))) :=
          skipWs_cons_nonws _ _ (by decide)
        rw [hsw2]
        simp only []
        have hVal : parseVal fuel (' ' :: (render (i + 2) v ++
            (',' :: (renderFields i f1 fs1 ++ '\n' :: (spaces i ++ ('}' :: rest)))))) =
            some (v, ',' :: (renderFields i f1 fs1 ++ '\n' :: (spaces i ++ ('}' :: rest)))) := by
          have : (' ' :: (render (i + 2) v ++
              (',' :: (renderFields i f1 fs1 ++ '\n' :: (spaces i ++ ('}' :: rest)))))) =
              [' '] ++ (render (i + 2) v ++
                (',' :: (renderFields i f1 fs1 ++ '\n' :: (spaces i ++ ('}' :: rest)))))  := by
            simp
          rw [this]
          exact ihV v (i + 2) [' '] _ (by intro x hx; simp at hx; subst hx; rfl) hlenV
        rw [hVal]
        have hsw3 : skipWs (',' :: (renderFields i f1 fs1 ++ '\n' :: (spaces i ++ ('}' :: rest)))) =
            ',' :: (renderFields i f1 fs1 ++ '\n' :: (spaces i ++ ('}' :: rest))) :=
          skipWs_cons_nonws _ _ (by decide)
        simp [hsw3, ihF f1 fs1 i rest hlenF]

/-- Helper: the modelled JSON.parse undoes the modelled JSON.stringify. -/
theorem parseJson_stringify (v : Json) : parseJson (stringify v) = some v := by
  unfold parseJson stringify
  have h := (parse_render_all ((render 0 v).length + 1)).1 v 0 [] []
    (by intro x hx; simp at hx) (by omega)
  rw [List.nil_append, List.append_nil] at h
  rw [h]
  simp [skipWs]

/-- Helper: characters of the trimmed text come from the text. -/
theorem trimChars_subset (l : List Char) (x : Char) (h : x ∈ trimChars l) : x ∈ l := by
  unfold trimChars at h
  rw [List.mem_reverse] at h
  have h2 := List.Sublist.mem h (List.dropWhile_sublist _)
  rw [List.mem_reverse] at h2
  exact List.Sublist.mem h2 (List.dropWhile_sublist _)

/-- Helper: splitting a line starting with a non-newline keeps it at the head
of the first line. -/
theorem splitNl_headD_cons (c : Char) (X : List Char) (hc : ¬ (c == '\n')) :
    ∃ l ls, splitNl (c :: X) = (c :: l) :: ls := by
  rw [splitNl, if_neg hc]
  cases h : splitNl X with
  | nil => exact absurd h (splitNl_ne_nil X)
  | cons l ls => exact ⟨l, ls, rfl⟩

/-- Helper: trimming keeps a non-whitespace head. -/
theorem trimChars_cons_nonws (c : Char) (l : List Char) (h : isWsChar c = false) :
    ∃ t, trimChars (c :: l) = c :: t := by
  obtain ⟨pre, hpre⟩ := List.dropWhile_suffix (l := (c :: l).reverse) isWsChar
  have hEne : (((c :: l).reverse).dropWhile isWsChar) ≠ [] := by
    apply dropWhile_ne_nil_of_mem _ _ c _ h
    rw [List.reverse_cons]
    exact List.mem_append.mpr (Or.inr (by simp))
  cases hE : ((c :: l).reverse).dropWhile isWsChar with
  | nil => exact absurd hE hEne
  | cons e0 es =>
    have htc : trimChars (c :: l) = (e0 :: es).reverse := by
      unfold trimChars
      rw [List.dropWhile_cons, if_neg (by simp [h]), hE]
    rw [hE] at hpre
    have hrev : (e0 :: es).reverse ++ pre.reverse = c :: l := by
      have h2 := congrArg List.reverse hpre
      rwa [List.reverse_append, List.reverse_reverse] at h2
    cases hR : (e0 :: es).reverse with
    | nil => simp at hR
    | cons d t2 =>
      rw [hR, List.cons_append] at hrev
      have hd : d = c := (List.cons.injEq _ _ _ _ ▸ hrev).1
      exact ⟨t2, by rw [htc, hR, hd]⟩

/-- Helper: a link line whose payload is trimmed and non-empty is its own
trim. -/
theorem trimChars_hash_link (T : List Char) (e : Char) (u : List Char)
    (hTr : T.reverse = e :: u) (he : isWsChar e = false) :
    trimChars (['#', 'l', 'i', 'n', 'k', ':', ' '] ++ T) =
      ['#', 'l', 'i', 'n', 'k', ':', ' '] ++ T := by
  unfold trimChars
  have h1 : List.dropWhile isWsChar (['#', 'l', 'i', 'n', 'k', ':', ' '] ++ T) =
      ['#', 'l', 'i', 'n', 'k', ':', ' '] ++ T := by
    rw [show ((['#', 'l', 'i', 'n', 'k', ':', ' '] : List Char) ++ T) =
      '#' :: (['l', 'i', 'n', 'k', ':', ' '] ++ T) from by simp,
      List.dropWhile_cons, if_neg (by decide)]
  rw [h1]
  have h2 : ((['#', 'l', 'i', 'n', 'k', ':', ' '] : List Char) ++ T).reverse =
      e :: (u ++ [' ', ':', 'k', 'n', 'i', 'l', '#']) := by
    rw [List.reverse_append, hTr,
      show (['#', 'l', 'i', 'n', 'k', ':', ' '] : List Char).reverse =
        [' ', ':', 'k', 'n', 'i', 'l', '#'] from rfl, List.cons_append]
  rw [h2, List.dropWhile_cons, if_neg (by simp [he]), ← h2, List.reverse_reverse]

/-- Helper: the data-file round trip for any modelled JSON value. -/
theorem parseDataFile_createDataFileContent (link : List Char) (v : Json)
    (hnl : '\n' ∉ link) :
    parseDataFile (createDataFileContent link v) = some (trimChars link, v) := by
  unfold createDataFileContent
  by_cases hL : link ≠ [] ∧ trimChars link ≠ []
  · rw [if_pos hL]
    obtain ⟨hne, hTne⟩ := hL
    have hnlT : '\n' ∉ ['#', 'l', 'i', 'n', 'k', ':', ' '] ++ trimChars link := by
      intro hmem
      rcases List.mem_append.mp hmem with h | h
      · simp at h
      · exact hnl (trimChars_subset link '\n' h)
    have hform : ((['#', 'l', 'i', 'n', 'k', ':', ' '] ++ trimChars link) ++ ['\n']) ++
        stringify v =
        (['#', 'l', 'i', 'n', 'k', ':', ' '] ++ trimChars link) ++ '\n' :: stringify v := by
      simp
    rw [hform]
    obtain ⟨e, u, hTr⟩ : ∃ e u, (trimChars link).reverse = e :: u := by
      cases hTr : (trimChars link).reverse with
      | nil =>
        have : trimChars link = [] := by
          have h2 := congrArg List.reverse hTr
          rwa [List.reverse_reverse] at h2
        exact absurd this hTne
      | cons e u => exact ⟨e, u, rfl⟩
    have he : isWsChar e = false := trimChars_last_false link e u hTr
    have htrimX := trimChars_hash_link (trimChars link) e u hTr he
    unfold parseDataFile
    rw [splitNl_append _ _ hnlT]
    simp only [List.headD_cons, List.drop_one, List.tail_cons]
    rw [htrimX]
    rw [if_pos (by simp [startsWithChars])]
    have hdrop : ((['#', 'l', 'i', 'n', 'k', ':', ' '] : List Char) ++ trimChars link).drop 6 =
        ' ' :: trimChars link := rfl
    rw [hdrop, trimChars_cons_ws _ _ (by rfl), trimChars_idem, joinNl_splitNl,
      parseJson_stringify]
    rfl
  · rw [if_neg hL, List.nil_append]
    have hTnil : trimChars link = [] := by
      by_cases h1 : link = []
      · rw [h1]; rfl
      · by_cases h2 : trimChars link = []
        · exact h2
        · exact absurd ⟨h1, h2⟩ hL
    obtain ⟨c, cs, hc, hcw, hch, _, _⟩ := render_head 0 v
    have hcnl : ¬ (c == '\n') := by
      intro hcon
      obtain rfl : c = '\n' := beq_iff_eq.mp hcon
      simp [isWsChar] at hcw
    unfold parseDataFile
    rw [show stringify v = render 0 v from rfl, hc]
    obtain ⟨l0, ls0, hsplit⟩ := splitNl_headD_cons c cs hcnl
    rw [hsplit]
    simp only [List.headD_cons]
    obtain ⟨t0, htrim⟩ := trimChars_cons_nonws c l0 hcw
    rw [htrim]
    rw [if_neg (by
      rw [show (['#', 'l', 'i', 'n', 'k', ':'] : List Char) = '#' :: ['l', 'i', 'n', 'k', ':']
        from rfl, startsWithChars]
      simp [beq_eq_false_iff_ne.mpr (Ne.symm hch)])]
    have hjson : parseJson (render 0 v) = some v := parseJson_stringify v
    rw [← hc, hjson, hTnil]
    rfl

/-- C7.  Save/load round trip: for every link without embedded newlines and
every words array, parsing the .data content produced by
createDataFileContent returns exactly the words array that was saved,
preserving order and every entry (the link comes back trimmed). -/
theorem datafile_round_trip (link : List Char) (words : List Json)
    (hnl : '\n' ∉ link) :
    parseDataFile (createDataFileContent link (Json.arr words)) =
      some (trimChars link, Json.arr words) :=
  parseDataFile_createDataFileContent link (Json.arr words) hnl

/-- C7 witness: a concrete link and one-entry word list survive the round
trip. -/
theorem datafile_round_trip_witness :
    ('\n' ∉ (['s', 'r', 'c'] : List Char)) ∧
    parseDataFile (createDataFileContent ['s', 'r', 'c']
        (Json.arr [Json.obj [(['w', 'o', 'r', 'd'], Json.str ['r', 'e', 'd'])]])) =
      some (trimChars ['s', 'r', 'c'],
        Json.arr [Json.obj [(['w', 'o', 'r', 'd'], Json.str ['r', 'e', 'd'])]]) :=
  ⟨by decide,
    datafile_round_trip ['s', 'r', 'c']
      [Json.obj [(['w', 'o', 'r', 'd'], Json.str ['r', 'e', 'd'])]] (by decide)⟩

/-- Helper: the listing loop is a filterMap over the per-file reader. -/
theorem collectSources_eq_filterMap (l : List (List Char × Option (List Char))) :
    collectSources l = l.filterMap (fun f => readSourceFile f.1 f.2) := by
  induction l with
  | nil => rfl
  | cons fc rest ih =>
    obtain ⟨f, c⟩ := fc
    rw [collectSources, List.filterMap_cons]
    cases h : readSourceFile f c with
    | none => simp [h, ih]
    | some s => simp [h, ih]

/-- C8.  Listing isolation: the GET /api/sources handler returns exactly the
entries of the .data files that could be read and parsed, in directory order;
a file whose read or parse fails (modelled by the reader returning none; the
handler only logs it) is skipped without affecting any other entry, and the
listing as a whole still succeeds.  The closing conjunct shows a directory
where a malformed file sits between two good ones. -/
theorem listing_isolation (files : List (List Char × Option (List Char))) :
    (listSourcesHandler files =
      (files.filter (fun f => endsWithChars ['.', 'd', 'a', 't', 'a'] f.1)).filterMap
        (fun f => readSourceFile f.1 f.2)) ∧
    (∀ f ∈ files, endsWithChars ['.', 'd', 'a', 't', 'a'] f.1 = true →
      ∀ s, readSourceFile f.1 f.2 = some s → s ∈ listSourcesHandler files) ∧
    (listSourcesHandler
        [(['g', '.', 'd', 'a', 't', 'a'], some ['[', ']']),
         (['b', '.', 'd', 'a', 't', 'a'], some ['{']),
         (['u', '.', 'd', 'a', 't', 'a'], none),
         (['n', 'o', 't', 'e', 's', '.', 't', 'x', 't'], some ['[', ']']),
         (['h', '.', 'd', 'a', 't', 'a'], some ['[', ']'])] =
      [{ name := ['G'], fileName := ['g', '.', 'd', 'a', 't', 'a'], link := [],
         words := Json.arr [], totalWords := some 0 },
       { name := ['H'], fileName := ['h', '.', 'd', 'a', 't', 'a'], link := [],
         words := Json.arr [], totalWords := some 0 }]) := by
  refine ⟨?_, ?_, ?_⟩
  · exact collectSources_eq_filterMap _
  · intro f hf hdata s hs
    rw [listSourcesHandler, collectSources_eq_filterMap]
    exact List.mem_filterMap.mpr ⟨f, List.mem_filter.mpr ⟨hf, hdata⟩, hs⟩
  · rfl

/-- C4 counterexample: POST /api/sources with name "Empty" and an empty words
array is not rejected with HTTP 400 and does write a file (the claimed
ValidationError for empty word lists does not exist in the handler). -/
theorem postSources_accepts_empty_cex :
    (postSources [] (some ['E', 'm', 'p', 't', 'y']) none (some (Json.arr []))).1 ≠
      PostResult.badRequest ∧
    (postSources [] (some ['E', 'm', 'p', 't', 'y']) none (some (Json.arr []))).2 =
      [(['e', 'm', 'p', 't', 'y', '.', 'd', 'a', 't', 'a'],
        ['[', ']'])] := by
  constructor
  · decide
  · have h1 : (postSources [] (some ['E', 'm', 'p', 't', 'y']) none
        (some (Json.arr []))).2 =
        [(fileNameOf ['E', 'm', 'p', 't', 'y'],
          createDataFileContent [] (Json.arr []))] := rfl
    have h2 : fileNameOf ['E', 'm', 'p', 't', 'y'] =
        ['e', 'm', 'p', 't', 'y', '.', 'd', 'a', 't', 'a'] := by decide
    have h3 : createDataFileContent [] (Json.arr []) = ['[', ']'] := by
      simp [createDataFileContent, stringify, render]
    rw [h1, h2, h3]

/-- C4 (amended).  The POST handler rejects with HTTP 400, storing nothing,
exactly when the name is missing or empty, or words is missing, falsy, or
not an array; it performs no per-element or non-emptiness validation, so an
empty array is accepted and written.  The client-side addSource, by
contrast, does reject an empty word list and stores nothing. -/
theorem post_validation :
    (∀ (files : List (List Char × List Char)) (name : Option (List Char))
        (link : Option (List Char)) (words : Option Json),
      ((postSources files name link words).1 = PostResult.badRequest ↔
        ¬ ∃ n vs, name = some n ∧ n ≠ [] ∧ words = some (Json.arr vs)) ∧
      ((postSources files name link words).1 = PostResult.badRequest →
        (postSources files name link words).2 = files)) ∧
    (∀ (st : AppState) (nm : String) (now : Nat), addSource st nm [] now = (false, st)) := by
  constructor
  · intro files name link words
    match name, words with
    | none, _ =>
      refine ⟨⟨fun _ => ?_, fun _ => rfl⟩, fun _ => rfl⟩
      rintro ⟨n, vs, hn, _, _⟩
      exact Option.noConfusion hn
    | some n, none =>
      refine ⟨⟨fun _ => ?_, fun _ => rfl⟩, fun _ => rfl⟩
      rintro ⟨n', vs, _, _, hw⟩
      exact Option.noConfusion hw
    | some n, some w =>
      by_cases hn : n = []
      · constructor
        · rw [show (postSources files (some n) link (some w)).1 = PostResult.badRequest from by
            simp [postSources, hn]]
          refine ⟨fun _ => ?_, fun _ => rfl⟩
          rintro ⟨n', vs, hn', hne, _⟩
          obtain rfl : n = n' := Option.some.inj hn'
          exact hne hn
        · intro _
          simp [postSources, hn]
      · cases w with
        | arr vs =>
          have hok : postSources files (some n) link (some (Json.arr vs)) =
              (PostResult.ok (fileNameOf n)
                  (createDataFileContent (link.getD []) (Json.arr vs)),
                writeFile files (fileNameOf n)
                  (createDataFileContent (link.getD []) (Json.arr vs))) := by
            simp [postSources, hn, jsFalsy, isArrayJson]
          constructor
          · rw [hok]
            simp only []
            constructor
            · intro hcon; exact PostResult.noConfusion hcon
            · intro hcon
              exact absurd ⟨n, vs, rfl, hn, rfl⟩ hcon
          · rw [hok]
            intro hcon
            exact absurd hcon (by simp)
        | null =>
          refine ⟨⟨fun _ => ?_, fun _ => by simp [postSources, jsFalsy]⟩,
            fun _ => by simp [postSources, jsFalsy]⟩
          rintro ⟨n', vs, _, _, hw⟩
          exact Json.noConfusion (Option.some.inj hw)
        | bool b =>
          cases b with
          | true =>
            refine ⟨⟨fun _ => ?_, fun _ => by simp [postSources, hn, jsFalsy, isArrayJson]⟩,
              fun _ => by simp [postSources, hn, jsFalsy, isArrayJson]⟩
            rintro ⟨n', vs, _, _, hw⟩
            exact Json.noConfusion (Option.some.inj hw)
          | false =>
            refine ⟨⟨fun _ => ?_, fun _ => by simp [postSources, jsFalsy]⟩,
              fun _ => by simp [postSources, jsFalsy]⟩
            rintro ⟨n', vs, _, _, hw⟩
            exact Json.noConfusion (Option.some.inj hw)
        | str sv =>
          by_cases hs : sv.isEmpty
          · refine ⟨⟨fun _ => ?_, fun _ => by simp [postSources, jsFalsy, hs]⟩,
              fun _ => by simp [postSources, jsFalsy, hs]⟩
            rintro ⟨n', vs, _, _, hw⟩
            exact Json.noConfusion (Option.some.inj hw)
          · refine ⟨⟨fun _ => ?_, fun _ => by simp [postSources, hn, jsFalsy, hs, isArrayJson]⟩,
              fun _ => by simp [postSources, hn, jsFalsy, hs, isArrayJson]⟩
            rintro ⟨n', vs, _, _, hw⟩
            exact Json.noConfusion (Option.some.inj hw)
        | obj fs =>
          refine ⟨⟨fun _ => ?_, fun _ => by simp [postSources, hn, jsFalsy, isArrayJson]⟩,
            fun _ => by simp [postSources, hn, jsFalsy, isArrayJson]⟩
          rintro ⟨n', vs, _, _, hw⟩
          exact Json.noConfusion (Option.some.inj hw)
  · intro st nm now
    simp [addSource]

/-- Helper: after writeFile, reading the path back yields the new content. -/
theorem lookup_writeFile_self (files : List (List Char × List Char)) (p c : List Char) :
    (writeFile files p c).lookup p = some c := by
  unfold writeFile
  by_cases hs : (files.lookup p).isSome
  · rw [if_pos hs]
    induction files with
    | nil => simp at hs
    | cons kv rest ih =>
      obtain ⟨k0, v0⟩ := kv
      rw [List.map_cons]
      by_cases h0 : k0 = p
      · have hb : (k0 == p) = true := beq_iff_eq.mpr h0
        have hb2 : (p == k0) = true := beq_iff_eq.mpr h0.symm
        simp [hb, hb2, List.lookup_cons]
      · have hb : (k0 == p) = false := beq_eq_false_iff_ne.mpr h0
        have hb2 : (p == k0) = false := beq_eq_false_iff_ne.mpr (Ne.symm h0)
        have hs' : (rest.lookup p).isSome := by
          rw [List.lookup_cons, hb2] at hs
          exact hs
        simp only [hb, Bool.false_eq_true, if_false]
        rw [List.lookup_cons, hb2]
        exact ih hs'
  · rw [if_neg hs]
    rw [lookup_append]
    rw [Option.not_isSome_iff_eq_none] at hs
    rw [hs]
    simp [List.lookup_cons]

/-- C10.  The stored file name is fileNameOf (lower-case, whitespace runs to
dashes, delete characters outside [a-z0-9-], append .data); two accepted
saves whose names normalise to the same file name write the same file, the
second silently overwriting the word list stored by the first. -/
theorem filename_collision_overwrites (files : List (List Char × List Char))
    (n1 n2 : List Char) (l1 l2 : Option (List Char)) (w1 w2 : List Json)
    (h1 : n1 ≠ []) (h2 : n2 ≠ []) (hcol : fileNameOf n1 = fileNameOf n2) :
    ((postSources files (some n1) l1 (some (Json.arr w1))).2.lookup (fileNameOf n1) =
      some (createDataFileContent (l1.getD []) (Json.arr w1))) ∧
    ((postSources ((postSources files (some n1) l1 (some (Json.arr w1))).2)
        (some n2) l2 (some (Json.arr w2))).2.lookup (fileNameOf n1) =
      some (createDataFileContent (l2.getD []) (Json.arr w2))) := by
  have hpost : ∀ (fs : List (List Char × List Char)) (n : List Char)
      (l : Option (List Char)) (w : List Json), n ≠ [] →
      (postSources fs (some n) l (some (Json.arr w))).2 =
        writeFile fs (fileNameOf n) (createDataFileContent (l.getD []) (Json.arr w)) := by
    intro fs n l w hn
    simp [postSources, hn, jsFalsy, isArrayJson]
  constructor
  · rw [hpost files n1 l1 w1 h1]
    exact lookup_writeFile_self _ _ _
  · rw [hpost _ n2 l2 w2 h2, hcol]
    exact lookup_writeFile_self _ _ _

/-- C10 witness: the distinct names "My Words" and "my WORDS!" normalise to
the same my-words.data file, so the second save overwrites the first. -/
theorem filename_collision_overwrites_witness :
    ((['M', 'y', ' ', 'W', 'o', 'r', 'd', 's'] : List Char) ≠ [] ∧
     (['m', 'y', ' ', 'W', 'O', 'R', 'D', 'S', '!'] : List Char) ≠ [] ∧
     (['M', 'y', ' ', 'W', 'o', 'r', 'd', 's'] : List Char) ≠
       ['m', 'y', ' ', 'W', 'O', 'R', 'D', 'S', '!'] ∧
     fileNameOf ['M', 'y', ' ', 'W', 'o', 'r', 'd', 's'] =
       fileNameOf ['m', 'y', ' ', 'W', 'O', 'R', 'D', 'S', '!']) ∧
    ((postSources ((postSources [] (some ['M', 'y', ' ', 'W', 'o', 'r', 'd', 's']) none
        (some (Json.arr []))).2)
        (some ['m', 'y', ' ', 'W', 'O', 'R', 'D', 'S', '!']) none
        (some (Json.arr [Json.str ['x']]))).2.lookup
          (fileNameOf ['M', 'y', ' ', 'W', 'o', 'r', 'd', 's']) =
      some (createDataFileContent [] (Json.arr [Json.str ['x']]))) :=
  ⟨⟨by decide, by decide, by decide, by decide⟩,
    (filename_collision_overwrites [] _ _ none none [] [Json.str ['x']]
      (by decide) (by decide) (by decide)).2⟩
